import Mathlib

/-!
Verification of the ingestion engine of the prediction-market-analysis
repository: the chunked resumable writer, the offset/cursor pagination
loops, the concurrent fetch orchestration, and the token-id parser.

The Python source is shallowly embedded: loops become fuel-indexed
structural recursions (with fuel proved sufficient), machine behaviour
of Python builtins used by the code (str.split, int(), json.loads
outcomes, truthiness) is modelled explicitly, and the filesystem is
abstracted to the lists of file names / stems the code manipulates.
-/

namespace PMA

/-! ### Chunked writer

Embeds the buffering/flushing loops of
`PolymarketWeatherIndexer._fetch_trades`, `_fetch_weather_markets` and
`KalshiWeatherIndexer._fetch_weather_trades`:

    while len(buf) >= batch_size:
        saved += save_batch(buf[:batch_size])
        buf = buf[batch_size:]

run per completion event, and a final `save_batch(buf)` after the loop.
`drainAux` is the inner `while`; fuel `buf.length + 1` is sufficient for
any positive batch size. -/

def drainAux (C : Nat) : Nat → List α → List (List α) × List α
  | 0, buf => ([], buf)
  | fuel + 1, buf =>
      if C ≤ buf.length then
        let rec_result := drainAux C fuel (buf.drop C)
        (buf.take C :: rec_result.1, rec_result.2)
      else ([], buf)

def drain (C : Nat) (buf : List α) : List (List α) × List α :=
  drainAux C (buf.length + 1) buf

/-- One completion event of the consumer loop: `all_trades.extend(records)`
followed by the drain `while`.  State is (flushed chunks so far, buffer). -/
def writerStep (C : Nat) (st : List (List α) × List α) (records : List α) :
    List (List α) × List α :=
  let buf := st.2 ++ records
  let d := drain C buf
  (st.1 ++ d.1, d.2)

/-- The whole consumer loop over a run's completion events. -/
def writerRun (C : Nat) (appends : List (List α)) : List (List α) × List α :=
  appends.foldl (writerStep C) ([], [])

/-- The run plus the final `if all_trades: save_batch(all_trades)`. -/
def writerFinalize (C : Nat) (appends : List (List α)) : List (List α) :=
  let r := writerRun C appends
  if r.2.isEmpty then r.1 else r.1 ++ [r.2]

/-- The half-open index ranges `[start, start+size)` spanned by successive
chunk sizes. -/
def rangesOf (start : Nat) : List Nat → List (Nat × Nat)
  | [] => []
  | s :: rest => (start, start + s) :: rangesOf (start + s) rest

/-! ### Chunk file naming

`save_batch` (both trades writers) names each flushed file
`trades_{next_chunk_idx}_{next_chunk_idx + batch_size}.parquet` and then
advances `next_chunk_idx` by `batch_size` — the encoded end is always
`start + batch_size`, even for the final partial batch.  The markets
writer instead names full chunks `markets_{k*C}_{k*C+C}.parquet` and the
final one `markets_{chunk_start}_{chunk_start + len(records)}.parquet`.
A file is modelled as ((encoded start, encoded end), record count). -/

def saveBatchFiles (C : Nat) (idx : Nat) : List (List α) → List ((Nat × Nat) × Nat)
  | [] => []
  | b :: rest => ((idx, idx + C), b.length) :: saveBatchFiles C (idx + C) rest

/-- Files produced by the trades writers for a whole run
(`save_batch` on every full batch and on the final partial batch). -/
def tradesFiles (C : Nat) (appends : List (List α)) : List ((Nat × Nat) × Nat) :=
  saveBatchFiles C 0 (writerFinalize C appends)

/-- Files produced by the markets writer (`_fetch_weather_markets`):
full chunks at `chunk_start = chunks_saved * chunk_size`, and a final
file whose encoded end is `chunk_start + len(all_weather_records)`. -/
def marketsFiles (C : Nat) (appends : List (List α)) : List ((Nat × Nat) × Nat) :=
  saveBatchFiles C 0 (writerRun C appends).1 ++
    (if (writerRun C appends).2.isEmpty then []
     else [(((writerRun C appends).1.length * C,
             (writerRun C appends).1.length * C + (writerRun C appends).2.length),
            (writerRun C appends).2.length)])

/-! ### Resume scan (`KalshiWeatherIndexer._fetch_weather_trades`)

    existing_files = list(TRADES_DIR.glob("trades_*.parquet"))
    ...
    parts = f.stem.split("_")
    if len(parts) >= 2:
        try: indices.append(int(parts[1]))
        except ValueError: pass
    if indices:
        next_chunk_idx = max(indices) + batch_size

Python's `str.split` on a one-character separator and `int()` on a
sign-plus-digits string are modelled explicitly (`int()` additionally
accepts surrounding whitespace and digit-group underscores, which never
occur in the writer's own file names). -/

def splitOnChar (sep : Char) (cs : List Char) : List (List Char) :=
  cs.foldr
    (fun c acc =>
      if c = sep then [] :: acc
      else
        match acc with
        | [] => [[c]]
        | g :: gs => (c :: g) :: gs)
    [[]]

def pyDigit? (c : Char) : Option Nat :=
  if '0' ≤ c ∧ c ≤ '9' then some (c.toNat - 48) else none

def pyDigitsVal (cs : List Char) : Option Nat :=
  cs.foldl
    (fun acc c =>
      match acc, pyDigit? c with
      | some n, some d => some (n * 10 + d)
      | _, _ => none)
    (some 0)

def pyDigits? (cs : List Char) : Option Nat :=
  if cs.isEmpty then none else pyDigitsVal cs

/-- Python `int()` on a simple string: optional sign then digits. -/
def pyInt? (cs : List Char) : Option Int :=
  match cs with
  | [] => none
  | c :: rest =>
      if c = '-' then (pyDigits? rest).map (fun n => -(n : Int))
      else if c = '+' then (pyDigits? rest).map (fun n => (n : Int))
      else (pyDigits? cs).map (fun n => (n : Int))

/-- `int(parts[1])` guarded by `len(parts) >= 2`, `ValueError` → skipped. -/
def parseStartIdx (stem : String) : Option Int :=
  let parts := splitOnChar '_' stem.data
  if 2 ≤ parts.length then pyInt? (parts.getD 1 []) else none

/-- The end index encoded in a chunk file stem (third `_`-separated
field).  The code never reads it; it is needed to state the spec's
"max of observed end indices" reading against the code's behaviour. -/
def parseEndIdx (stem : String) : Option Int :=
  let parts := splitOnChar '_' stem.data
  if 3 ≤ parts.length then pyInt? (parts.getD 2 []) else none

/-- The resume computation of the Kalshi trades writer: max of the
parsed START indices plus `batch_size`, or 0 when nothing parses. -/
def resumeNextChunkIdx (C : Nat) (stems : List String) : Int :=
  match (stems.filterMap parseStartIdx).max? with
  | some m => m + C
  | none => 0

/-- Modelled from the spec: "sets its next start index to the maximum of
the end indices observed in those filenames, and to 0 when no chunk
files exist".  This is the spec-side reading, to be compared with
`resumeNextChunkIdx` (the code). -/
def specResumeNextIdx (stems : List String) : Int :=
  match (stems.filterMap parseEndIdx).max? with
  | some m => m
  | none => 0

/-! ### Offset pagination (`PolymarketClient.iter_markets` / `iter_trades`)

The two generators are textually identical loops:

    while True:
        items = self.get_...(limit=limit, offset=current_offset)
        if not items:
            yield [], -1
            break
        next_offset = current_offset + len(items)
        yield items, next_offset
        if len(items) < limit:
            break
        current_offset = next_offset

A source holding `N` items is modelled by `pageAt`: the request at
`offset` returns the items with indices `[offset, min(offset+P, N))`.
The model returns both the yielded pairs and the trace of requested
offsets; fuel `N + 1` is sufficient since each iteration either stops or
advances the offset by `P ≥ 1`. -/

def pageAt (N P off : Nat) : List Nat := List.range' off (min P (N - off))

def iterAux (N P : Nat) : Nat → Nat → List (List Nat × Int) × List Nat
  | 0, _ => ([], [])
  | fuel + 1, off =>
      let page := pageAt N P off
      if page.isEmpty then ([([], -1)], [off])
      else
        let nxt := off + page.length
        if page.length < P then ([(page, (nxt : Int))], [off])
        else
          let r := iterAux N P fuel nxt
          ((page, (nxt : Int)) :: r.1, off :: r.2)

def iterYields (N P : Nat) : List (List Nat × Int) := (iterAux N P (N + 1) 0).1

def iterRequests (N P : Nat) : List Nat := (iterAux N P (N + 1) 0).2

/-! ### Cursor pagination (`get_market_trades` / `get_all_market_trades`)

    next_cursor = data.get("next_cursor")
    if next_cursor == "LTE=":
        next_cursor = None
    ...
    while True:
        trades, next_cursor = self.get_market_trades(token_id, cursor=cursor)
        if trades: all_trades.extend(trades)
        if not next_cursor: break
        cursor = next_cursor

A raw API response is (trades, raw next_cursor); an absent
`next_cursor` field is `none`.  The loop consumes responses in order;
the trace records, per call, the `cursor` query parameter sent
(`none` when the falsy cursor is omitted from `params`). -/

def sentinelCursor : String := "LTE="

def emptyStr : String := ""

/-- Python truthiness of an optional cursor string. -/
def pyTruthyStr : Option String → Bool
  | none => false
  | some s => !s.isEmpty

/-- The sentinel normalization inside `get_market_trades`. -/
def normCursor (c : Option String) : Option String :=
  if c = some sentinelCursor then none else c

def getMarketTrades (resp : List α × Option String) : List α × Option String :=
  (resp.1, normCursor resp.2)

/-- `if cursor: params["cursor"] = cursor` — the cursor parameter
actually placed in the request, `none` when omitted. -/
def cursorParam (c : Option String) : Option String :=
  if pyTruthyStr c then c else none

def getAllAux (cursor : Option String) :
    List (List α × Option String) → List α × List (Option String)
  | [] => ([], [])
  | r :: rest =>
      let t := getMarketTrades r
      if pyTruthyStr t.2 then
        let acc := getAllAux t.2 rest
        (t.1 ++ acc.1, cursorParam cursor :: acc.2)
      else (t.1, [cursorParam cursor])

/-- `get_all_market_trades` against a response sequence: accumulated
trades and the per-call trace of sent cursor parameters. -/
def getAllTrace (responses : List (List α × Option String)) :
    List α × List (Option String) :=
  getAllAux none responses

/-- A raw cursor after which the loop must stop: absent, empty, or the
"no next cursor" sentinel. -/
def isTerminalRaw (c : Option String) : Prop :=
  c = none ∨ c = some emptyStr ∨ c = some sentinelCursor

/-! ### Concurrent fetch aggregation (`_fetch_price_history`,
`_fetch_weather_trades`)

A per-item fetch outcome is `Except ε (List ρ)`: `ok` for a fetch that
returned records, `error` for one that raised / exhausted retries.  The
consumer (`for future in as_completed(futures)`) is modelled as a fold
over the completion order; quantifying over all result lists covers all
completion orders and outcome assignments. -/

def okRecords : Except ε (List ρ) → Option (List ρ)
  | .ok rs => some rs
  | .error _ => none

/-- Polymarket `fetch_one`: `except Exception: return []`. -/
def fetchOnePrices : Except ε (List ρ) → List ρ
  | .ok rs => rs
  | .error _ => []

/-- One iteration of the `_fetch_price_history` consumer loop:
`records = future.result(); if records: all_prices.extend(records)`. -/
def pricesStep (acc : List ρ) (r : Except ε (List ρ)) : List ρ :=
  let records := fetchOnePrices r
  if records.isEmpty then acc else acc ++ records

/-- The `_fetch_price_history` consumer loop over the completion order. -/
def aggregatePrices (results : List (Except ε (List ρ))) : List ρ :=
  results.foldl pricesStep []

/-- One iteration of the Kalshi `_fetch_weather_trades` consumer loop:
the fetch itself may raise; `except Exception` around `future.result()`
skips the item. -/
def kalshiStep (acc : List ρ) (r : Except ε (List ρ)) : List ρ :=
  match r with
  | .ok rs => if rs.isEmpty then acc else acc ++ rs
  | .error _ => acc

/-- The Kalshi consumer loop over the completion order. -/
def aggregateKalshiTrades (results : List (Except ε (List ρ))) : List ρ :=
  results.foldl kalshiStep []

/-- Every completed future is consumed exactly once (`pbar.update(1)` on
both the success and the failure path). -/
def processedCount (results : List (Except ε (List ρ))) : Nat :=
  results.foldl (fun n _ => n + 1) 0

/-! ### Work-set construction (`run` / `_fetch_weather_trades`)

Polymarket: `token_map[tid] = m.condition_id` over all weather markets
(a `dict`: insertion keeps first position, updates value), then one
`executor.submit` per dict key.  Kalshi: one `executor.submit` per
element of the `tickers` *list* — no deduplication. -/

def dictUpsert (m : List (String × String)) (k v : String) :
    List (String × String) :=
  if m.any (fun p => p.1 == k) then
    m.map (fun p => if p.1 == k then (p.1, v) else p)
  else m ++ [(k, v)]

/-- `token_map` built in `PolymarketWeatherIndexer.run`; a market is
(condition_id, parsed clob token ids). -/
def buildTokenMap (markets : List (String × List String)) :
    List (String × String) :=
  markets.foldl
    (fun acc m => m.2.foldl (fun acc2 tid => dictUpsert acc2 tid m.1) acc)
    []

/-- The keys submitted to the Polymarket executors (`for tid in token_map`). -/
def polymarketSubmissions (markets : List (String × List String)) : List String :=
  (buildTokenMap markets).map (fun p => p.1)

/-- The keys submitted to the Kalshi executor (`for ticker in tickers`). -/
def kalshiSubmissions (tickers : List String) : List String := tickers

/-! ### Token-id parsing (`_parse_token_ids`)

    try:
        ids = json.loads(clob_token_ids.replace("'", '"'))
        if isinstance(ids, list):
            return [str(t) for t in ids if t]
    except (json.JSONDecodeError, TypeError):
        pass
    return []

`json.loads` is Python's stdlib JSON parser (not repository code); it is
modelled as a parameter returning `none` for a raise.  JSON numbers are
modelled as integers; Python `str()` of nested lists/dicts is
abbreviated (the claim only concerns scalar elements). -/

inductive Json where
  | null : Json
  | bool (b : Bool) : Json
  | num (n : Int) : Json
  | str (s : String) : Json
  | arr (xs : List Json) : Json
  | obj (fields : List (String × Json)) : Json

/-- Python truthiness of a parsed JSON value (`if t`). -/
def pyTruthyJson : Json → Bool
  | .null => false
  | .bool b => b
  | .num n => !(n == 0)
  | .str s => !s.isEmpty
  | .arr xs => !xs.isEmpty
  | .obj fs => !fs.isEmpty

/-- Python `str()` of a parsed JSON value (`str(t)`); nested
containers abbreviated. -/
def pyStr : Json → String
  | .null => "None"
  | .bool true => "True"
  | .bool false => "False"
  | .num n => toString n
  | .str s => s
  | .arr _ => "[...]"
  | .obj _ => "\x7b...\x7d"

/-- `clob_token_ids.replace("'", '"')`: every single-quote character
(code 39) becomes a double quote (code 34). -/
def pyReplaceQuotes (s : String) : String :=
  String.map (fun c => if c.toNat = 39 then Char.ofNat 34 else c) s

def parseTokenIds (jsonLoads : String → Option Json) (s : String) : List String :=
  match jsonLoads (pyReplaceQuotes s) with
  | some (Json.arr xs) => (xs.filter pyTruthyJson).map pyStr
  | _ => []

/-! #### Basic drain lemmas -/

theorem drainAux_join (C : Nat) (hC : 0 < C) :
    ∀ (fuel : Nat) (buf : List α), buf.length < fuel →
      ((drainAux C fuel buf).1.flatten ++ (drainAux C fuel buf).2 = buf ∧
       (∀ c ∈ (drainAux C fuel buf).1, c.length = C) ∧
       (drainAux C fuel buf).2.length < C) := by
  intro fuel
  induction fuel with
  | zero => intro buf h; omega
  | succ n ih =>
      intro buf h
      by_cases hle : C ≤ buf.length
      · have hdrop : (buf.drop C).length < n := by
          simp only [List.length_drop]; omega
        obtain ⟨h1, h2, h3⟩ := ih (buf.drop C) hdrop
        refine ⟨?_, ?_, ?_⟩
        · simp only [drainAux, if_pos hle, List.flatten_cons]
          rw [List.append_assoc, h1, List.take_append_drop]
        · simp only [drainAux, if_pos hle]
          intro c hc
          rcases List.mem_cons.mp hc with hc | hc
          · subst hc; exact List.length_take_of_le hle
          · exact h2 c hc
        · simpa only [drainAux, if_pos hle] using h3
      · refine ⟨?_, ?_, ?_⟩
        · simp [drainAux, hle]
        · simp [drainAux, hle]
        · simp only [drainAux, if_neg hle]
          omega

theorem drain_spec (C : Nat) (hC : 0 < C) (buf : List α) :
    (drain C buf).1.flatten ++ (drain C buf).2 = buf ∧
      (∀ c ∈ (drain C buf).1, c.length = C) ∧
      (drain C buf).2.length < C :=
  drainAux_join C hC (buf.length + 1) buf (Nat.lt_succ_self _)

/-- Invariant of the consumer loop: flushed chunks followed by the buffer
reproduce everything appended so far, every flushed chunk is full, and the
buffer stays shorter than the batch size. -/
theorem writerRun_inv (C : Nat) (hC : 0 < C) (appends : List (List α)) :
    ((writerRun C appends).1.flatten ++ (writerRun C appends).2 = appends.flatten ∧
     (∀ c ∈ (writerRun C appends).1, c.length = C) ∧
     (writerRun C appends).2.length < C) := by
  suffices h : ∀ (st : List (List α) × List α),
      (∀ c ∈ st.1, c.length = C) → st.2.length < C →
      ((appends.foldl (writerStep C) st).1.flatten ++
          (appends.foldl (writerStep C) st).2 = st.1.flatten ++ st.2 ++ appends.flatten ∧
        (∀ c ∈ (appends.foldl (writerStep C) st).1, c.length = C) ∧
        (appends.foldl (writerStep C) st).2.length < C) by
    have := h ([], []) (by simp) (by simpa using hC)
    simpa [writerRun] using this
  induction appends with
  | nil =>
      intro st h1 h2
      simp only [List.foldl_nil, List.flatten_nil, List.append_nil]
      exact ⟨trivial, h1, h2⟩
  | cons a rest ih =>
      intro st h1 h2
      obtain ⟨d1, d2, d3⟩ := drain_spec C hC (st.2 ++ a)
      have hstep : ∀ c ∈ (writerStep C st a).1, c.length = C := by
        intro c hc
        rcases List.mem_append.mp hc with hc | hc
        · exact h1 c hc
        · exact d2 c hc
      have hbuf : (writerStep C st a).2.length < C := d3
      obtain ⟨i1, i2, i3⟩ := ih (writerStep C st a) hstep hbuf
      refine ⟨?_, by simpa using i2, by simpa using i3⟩
      simp only [List.foldl_cons] at *
      rw [i1]
      simp only [writerStep, List.flatten_append]
      rw [List.append_assoc ((st.1).flatten) _ _, d1]
      simp [List.append_assoc]

theorem writerFinalize_flatten (C : Nat) (hC : 0 < C) (appends : List (List α)) :
    (writerFinalize C appends).flatten = appends.flatten := by
  obtain ⟨h1, _, _⟩ := writerRun_inv C hC appends
  unfold writerFinalize
  by_cases hb : (writerRun C appends).2.isEmpty
  · rw [if_pos hb]
    have hnil : (writerRun C appends).2 = [] := List.isEmpty_iff.mp hb
    rw [hnil, List.append_nil] at h1
    exact h1
  · rw [if_neg hb, List.flatten_append]
    simpa using h1

theorem writerRun_map_length (C : Nat) (hC : 0 < C) (appends : List (List α)) :
    (writerRun C appends).1.map List.length =
      List.replicate (writerRun C appends).1.length C := by
  obtain ⟨_, h2, _⟩ := writerRun_inv C hC appends
  have := List.eq_replicate_of_mem (l := (writerRun C appends).1.map List.length)
    (a := C) ?_
  · simpa using this
  · intro b hb
    obtain ⟨c, hc, rfl⟩ := List.mem_map.mp hb
    exact h2 c hc

theorem writerRun_total_length (C : Nat) (hC : 0 < C) (appends : List (List α)) :
    appends.flatten.length =
      C * (writerRun C appends).1.length + (writerRun C appends).2.length := by
  obtain ⟨h1, _, _⟩ := writerRun_inv C hC appends
  rw [← h1, List.length_append, List.length_flatten, writerRun_map_length C hC,
    List.sum_replicate, smul_eq_mul, Nat.mul_comm]

theorem writerFinalize_sizes (C : Nat) (hC : 0 < C) (appends : List (List α)) :
    (writerFinalize C appends).map List.length =
      List.replicate (appends.flatten.length / C) C ++
        (if appends.flatten.length % C = 0 then []
         else [appends.flatten.length % C]) := by
  obtain ⟨_, _, h3⟩ := writerRun_inv C hC appends
  have hL := writerRun_total_length C hC appends
  have hdiv : appends.flatten.length / C = (writerRun C appends).1.length := by
    rw [hL, Nat.mul_add_div hC, Nat.div_eq_of_lt h3, Nat.add_zero]
  have hmod : appends.flatten.length % C = (writerRun C appends).2.length := by
    rw [hL, Nat.mul_add_mod, Nat.mod_eq_of_lt h3]
  unfold writerFinalize
  by_cases hb : (writerRun C appends).2.isEmpty
  · have hb0 : (writerRun C appends).2.length = 0 := by
      rw [List.isEmpty_iff.mp hb]; rfl
    rw [if_pos hb, hdiv, hmod, hb0, if_pos rfl, List.append_nil]
    exact writerRun_map_length C hC appends
  · have hb0 : (writerRun C appends).2.length ≠ 0 := by
      intro h
      exact hb (List.isEmpty_iff.mpr (List.length_eq_zero.mp h))
    rw [if_neg hb, hdiv, hmod, if_neg hb0, List.map_append]
    rw [writerRun_map_length C hC appends]
    rfl

theorem rangesOf_start_le :
    ∀ (sizes : List Nat) (start : Nat) (r : Nat × Nat),
      r ∈ rangesOf start sizes → start ≤ r.1 := by
  intro sizes
  induction sizes with
  | nil => intro start r h; simp [rangesOf] at h
  | cons s rest ih =>
      intro start r h
      simp only [rangesOf, List.mem_cons] at h
      rcases h with rfl | h
      · exact Nat.le_refl start
      · exact Nat.le_trans (Nat.le_add_right start s) (ih (start + s) r h)

theorem rangesOf_cover :
    ∀ (sizes : List Nat) (start i : Nat),
      (∀ s ∈ sizes, 0 < s) → start ≤ i → i < start + sizes.sum →
      ∃! r, r ∈ rangesOf start sizes ∧ r.1 ≤ i ∧ i < r.2 := by
  intro sizes
  induction sizes with
  | nil =>
      intro start i _ h1 h2
      simp only [List.sum_nil, Nat.add_zero] at h2
      omega
  | cons s rest ih =>
      intro start i hpos h1 h2
      by_cases hcase : i < start + s
      · refine ⟨(start, start + s), ⟨by simp [rangesOf], h1, hcase⟩, ?_⟩
        rintro ⟨a, b⟩ ⟨hmem, hab1, hab2⟩
        simp only [rangesOf, List.mem_cons] at hmem
        rcases hmem with heq | hmem
        · exact heq
        · have hle := rangesOf_start_le rest (start + s) (a, b) hmem
          simp only at hle
          omega
      · have hs : start + s ≤ i := Nat.le_of_not_lt hcase
        have h2' : i < (start + s) + rest.sum := by
          simp only [List.sum_cons] at h2
          omega
        obtain ⟨r, ⟨hrmem, hr1, hr2⟩, hruniq⟩ :=
          ih (start + s) i (fun t ht => hpos t (List.mem_cons_of_mem s ht)) hs h2'
        refine ⟨r, ⟨List.mem_cons_of_mem _ hrmem, hr1, hr2⟩, ?_⟩
        rintro ⟨a, b⟩ ⟨hmem, hab1, hab2⟩
        simp only [rangesOf, List.mem_cons] at hmem
        rcases hmem with heq | hmem
        · cases heq
          omega
        · exact hruniq (a, b) ⟨hmem, hab1, hab2⟩

theorem saveBatchFiles_mem (C : Nat) :
    ∀ (chunks : List (List α)) (idx : Nat),
      ∀ f ∈ saveBatchFiles C idx chunks,
        f.1.2 = f.1.1 + C ∧ ∃ b ∈ chunks, f.2 = b.length := by
  intro chunks
  induction chunks with
  | nil => intro idx f hf; simp [saveBatchFiles] at hf
  | cons b rest ih =>
      intro idx f hf
      simp only [saveBatchFiles, List.mem_cons] at hf
      rcases hf with rfl | hf
      · exact ⟨rfl, b, List.mem_cons_self b rest, rfl⟩
      · obtain ⟨h1, b', hb', h2⟩ := ih (idx + C) f hf
        exact ⟨h1, b', List.mem_cons_of_mem b hb', h2⟩

theorem saveBatchFiles_chain (C : Nat) :
    ∀ (chunks : List (List α)) (idx : Nat),
      List.Chain' (fun a b => a.1.2 = b.1.1) (saveBatchFiles C idx chunks) := by
  intro chunks
  induction chunks with
  | nil => intro idx; simp [saveBatchFiles]
  | cons b rest ih =>
      intro idx
      rw [saveBatchFiles, List.chain'_cons']
      refine ⟨?_, ih (idx + C)⟩
      intro y hy
      cases rest with
      | nil => simp [saveBatchFiles] at hy
      | cons b' rest' =>
          simp only [saveBatchFiles, List.head?_cons, Option.mem_def,
            Option.some.injEq] at hy
          rw [← hy]

theorem saveBatchFiles_getLast_end (C : Nat) :
    ∀ (chunks : List (List α)) (idx : Nat) (f : (Nat × Nat) × Nat),
      (saveBatchFiles C idx chunks).getLast? = some f →
        f.1.2 = idx + chunks.length * C := by
  intro chunks
  induction chunks with
  | nil => intro idx f h; simp [saveBatchFiles] at h
  | cons b rest ih =>
      intro idx f h
      cases rest with
      | nil =>
          simp only [saveBatchFiles, List.getLast?_singleton,
            Option.some.injEq] at h
          rw [← h]
          simp [Nat.one_mul]
      | cons b' rest' =>
          rw [saveBatchFiles, saveBatchFiles, List.getLast?_cons_cons] at h
          have := ih (idx + C) f (by rw [saveBatchFiles]; exact h)
          rw [this]
          simp only [List.length_cons]
          ring

/-- C1: for every sequence of appended record batches of total length L,
flushed with chunk size C = 10000, the writer produces exactly `L / C`
full chunks of `C` records each plus one final chunk of `L % C` records
(omitted when `L % C = 0`), and the chunk index ranges partition
`[0, L)`: every index `i < L` lies in exactly one chunk range. -/
theorem chunk_sizes_and_partition (appends : List (List Nat)) (i : Nat)
    (hi : i < appends.flatten.length) :
    (writerFinalize 10000 appends).map List.length =
        List.replicate (appends.flatten.length / 10000) 10000 ++
          (if appends.flatten.length % 10000 = 0 then []
           else [appends.flatten.length % 10000]) ∧
      ∃! r, r ∈ rangesOf 0 ((writerFinalize 10000 appends).map List.length) ∧
            r.1 ≤ i ∧ i < r.2 := by
  have hsz := writerFinalize_sizes 10000 (by norm_num) appends
  refine ⟨hsz, ?_⟩
  apply rangesOf_cover _ 0 i ?_ (Nat.zero_le i) ?_
  · intro s hs
    rw [hsz] at hs
    rcases List.mem_append.mp hs with hs | hs
    · rw [List.eq_of_mem_replicate hs]; norm_num
    · by_cases h0 : appends.flatten.length % 10000 = 0
      · rw [if_pos h0] at hs; simp at hs
      · rw [if_neg h0] at hs
        simp only [List.mem_singleton] at hs
        omega
  · rw [hsz, Nat.zero_add, List.sum_append, List.sum_replicate, smul_eq_mul]
    by_cases h0 : appends.flatten.length % 10000 = 0
    · rw [if_pos h0, List.sum_nil]
      have := Nat.div_add_mod appends.flatten.length 10000
      omega
    · rw [if_neg h0, List.sum_singleton]
      have := Nat.div_add_mod appends.flatten.length 10000
      omega

theorem chunk_sizes_and_partition_witness :
    1 < ([[5, 6, 7]] : List (List Nat)).flatten.length ∧
      ((writerFinalize 10000 [[5, 6, 7]]).map List.length =
          List.replicate (([[5, 6, 7]] : List (List Nat)).flatten.length / 10000) 10000 ++
            (if ([[5, 6, 7]] : List (List Nat)).flatten.length % 10000 = 0 then []
             else [([[5, 6, 7]] : List (List Nat)).flatten.length % 10000]) ∧
        ∃! r, r ∈ rangesOf 0 ((writerFinalize 10000 [[5, 6, 7]]).map List.length) ∧
              r.1 ≤ 1 ∧ 1 < r.2) :=
  ⟨by decide, chunk_sizes_and_partition [[5, 6, 7]] 1 (by decide)⟩

/-- C7: concatenating the contents of all flushed chunk files in chunk
order reproduces exactly the sequence of records passed to the writer,
in order (batch size 10000, as in the code). -/
theorem concat_chunks_reproduces_input (α : Type) (appends : List (List α)) :
    (writerFinalize 10000 appends).flatten = appends.flatten :=
  writerFinalize_flatten 10000 (by norm_num) appends

theorem writerFinalize_chunk_le (C : Nat) (hC : 0 < C) (appends : List (List α)) :
    ∀ b ∈ writerFinalize C appends, b.length ≤ C := by
  obtain ⟨_, h2, h3⟩ := writerRun_inv C hC appends
  intro b hb
  unfold writerFinalize at hb
  by_cases he : (writerRun C appends).2.isEmpty
  · rw [if_pos he] at hb
    exact Nat.le_of_eq (h2 b hb)
  · rw [if_neg he] at hb
    rcases List.mem_append.mp hb with hb | hb
    · exact Nat.le_of_eq (h2 b hb)
    · simp only [List.mem_singleton] at hb
      rw [hb]
      exact Nat.le_of_lt h3

/-- C8 counterexample: after a run of 3 records with batch size 10000,
`save_batch` produces a single trades chunk file named `[0, 10000)` that
holds only 3 records — the encoded width does not equal the record
count, refuting the claim as stated. -/
theorem chunk_naming_counterexample :
    ∃ f ∈ tradesFiles 10000 [[1, 2, 3]], f.1.2 - f.1.1 ≠ f.2 := by decide

/-- C8 amended: each chunk's encoded start equals the previous chunk's
encoded end (both writers).  The markets writer names every file —
including the final, possibly smaller one — with
`end − start = number of records written`.  The trades writers'
`save_batch` always encodes width `batch_size = 10000`, so the final
partial file's `end − start` is 10000 even when it holds fewer records
(record counts never exceed 10000). -/
theorem chunk_naming_amended (appends : List (List Nat)) :
    (∀ f ∈ marketsFiles 10000 appends, f.1.2 - f.1.1 = f.2) ∧
      List.Chain' (fun a b => a.1.2 = b.1.1) (marketsFiles 10000 appends) ∧
      List.Chain' (fun a b => a.1.2 = b.1.1) (tradesFiles 10000 appends) ∧
      (∀ f ∈ tradesFiles 10000 appends, f.1.2 - f.1.1 = 10000 ∧ f.2 ≤ 10000) := by
  obtain ⟨_, h2, h3⟩ := writerRun_inv 10000 (by norm_num) appends
  refine ⟨?_, ?_, saveBatchFiles_chain 10000 _ 0, ?_⟩
  · intro f hf
    unfold marketsFiles at hf
    rcases List.mem_append.mp hf with hf | hf
    · obtain ⟨h1, b, hb, hcnt⟩ := saveBatchFiles_mem 10000 _ 0 f hf
      have hbl : b.length = 10000 := h2 b hb
      omega
    · by_cases he : (writerRun 10000 appends).2.isEmpty
      · rw [if_pos he] at hf
        simp at hf
      · rw [if_neg he] at hf
        simp only [List.mem_singleton] at hf
        rw [hf]
        simp
  · unfold marketsFiles
    apply List.Chain'.append (saveBatchFiles_chain 10000 _ 0)
    · by_cases he : (writerRun 10000 appends).2.isEmpty
      · rw [if_pos he]; exact List.chain'_nil
      · rw [if_neg he]; exact List.chain'_singleton _
    · intro x hx y hy
      by_cases he : (writerRun 10000 appends).2.isEmpty
      · rw [if_pos he] at hy
        simp at hy
      · rw [if_neg he] at hy
        simp only [List.head?_cons, Option.mem_def, Option.some.injEq] at hy
        have hlast := saveBatchFiles_getLast_end 10000
          (writerRun 10000 appends).1 0 x (Option.mem_def.mp hx)
        rw [← hy, hlast, Nat.zero_add, Nat.mul_comm]
  · intro f hf
    obtain ⟨h1, b, hb, hcnt⟩ := saveBatchFiles_mem 10000 _ 0 f hf
    have hble := writerFinalize_chunk_le 10000 (by norm_num) appends b hb
    omega

theorem chunk_naming_amended_witness :
    (((0, 10000), 3) ∈ tradesFiles 10000 [[1, 2, 3]]) ∧
      ((10000 : Nat) - 0 = 10000 ∧ (3 : Nat) ≤ 10000) :=
  ⟨by decide, (chunk_naming_amended [[1, 2, 3]]).2.2.2 ((0, 10000), 3) (by decide)⟩

theorem max?_map_add (c : Int) :
    ∀ (l : List Int), (l.map (fun x => x + c)).max? = l.max?.map (fun x => x + c) := by
  intro l
  induction l with
  | nil => rfl
  | cons a as ih =>
      simp only [List.map_cons, List.max?_cons, ih]
      cases as.max? with
      | none => rfl
      | some m =>
          simp only [Option.map_some', Option.elim]
          rw [max_add_add_right]

theorem filterMap_end_eq_map_add (C : Nat) :
    ∀ (stems : List String),
      (∀ stem ∈ stems, ∃ s, parseStartIdx stem = some s ∧
          parseEndIdx stem = some (s + (C : Int))) →
      stems.filterMap parseEndIdx =
        (stems.filterMap parseStartIdx).map (fun x => x + (C : Int)) := by
  intro stems
  induction stems with
  | nil => intro _; rfl
  | cons st rest ih =>
      intro h
      obtain ⟨s, h1, h2⟩ := h st (List.mem_cons_self st rest)
      rw [List.filterMap_cons, List.filterMap_cons, h1, h2]
      simp only [List.map_cons]
      rw [ih (fun stem hm => h stem (List.mem_cons_of_mem st hm))]

/-- C2 counterexample: resuming against existing chunk files
`trades_0_100` and `trades_100_250` (chunks `[0,100)` and `[100,250)`),
the Kalshi writer sets its next start index to 10100 — the maximum
parsed START index (100) plus the batch size (10000) — and not to 250,
the maximum end index, refuting the claim as stated. -/
theorem resume_start_index_counterexample :
    resumeNextChunkIdx 10000 ["trades_0_100", "trades_100_250"] = 10100 ∧
      specResumeNextIdx ["trades_0_100", "trades_100_250"] = 250 ∧
      resumeNextChunkIdx 10000 ["trades_0_100", "trades_100_250"] ≠ 250 := by
  decide

/-- C2 amended: at startup the Kalshi trades writer parses the START
index of every chunk file stem and sets its next start index to
`max(parsed start indices) + batch_size`, or 0 when no chunk files
exist.  This coincides with the claimed `max(observed end indices)`
exactly when every existing file follows the writer's own naming
convention, i.e. its encoded end equals its encoded start plus the
batch size. -/
theorem resume_start_index_amended (C : Nat) (stems : List String)
    (h : ∀ stem ∈ stems, ∃ s, parseStartIdx stem = some s ∧
        parseEndIdx stem = some (s + (C : Int))) :
    resumeNextChunkIdx C stems = specResumeNextIdx stems ∧
      resumeNextChunkIdx C [] = 0 := by
  refine ⟨?_, rfl⟩
  unfold resumeNextChunkIdx specResumeNextIdx
  rw [filterMap_end_eq_map_add C stems h, max?_map_add]
  cases (stems.filterMap parseStartIdx).max? with
  | none => rfl
  | some m => rfl

theorem resume_start_index_amended_witness :
    (∀ stem ∈ (["trades_0_10000", "trades_10000_20000"] : List String),
        ∃ s, parseStartIdx stem = some s ∧
          parseEndIdx stem = some (s + (10000 : Int))) ∧
      (resumeNextChunkIdx 10000 ["trades_0_10000", "trades_10000_20000"] =
          specResumeNextIdx ["trades_0_10000", "trades_10000_20000"] ∧
        resumeNextChunkIdx 10000 [] = 0) := by
  have hhyp : ∀ stem ∈ (["trades_0_10000", "trades_10000_20000"] : List String),
      ∃ s, parseStartIdx stem = some s ∧
        parseEndIdx stem = some (s + (10000 : Int)) := by
    intro stem hstem
    rcases List.mem_cons.mp hstem with rfl | hstem
    · exact ⟨0, by decide, by decide⟩
    · rcases List.mem_cons.mp hstem with rfl | hstem
      · exact ⟨10000, by decide, by decide⟩
      · simp at hstem
  exact ⟨hhyp, resume_start_index_amended 10000 _ hhyp⟩

theorem iterAux_requests (N P : Nat) (hP : 0 < P) :
    ∀ (fuel off : Nat), (N - off) / P < fuel →
      (iterAux N P fuel off).2 =
        (List.range ((N - off) / P + 1)).map (fun k => off + k * P) := by
  intro fuel
  induction fuel with
  | zero => intro off h; exact absurd h (Nat.not_lt_zero _)
  | succ fuel ih =>
      intro off _
      rcases Nat.lt_or_ge (N - off) P with hsmall | hge
      · have hdiv : (N - off) / P = 0 := Nat.div_eq_of_lt hsmall
        by_cases hzero : N - off = 0
        · have hpage : pageAt N P off = [] := by
            simp [pageAt, hzero]
          simp [iterAux, hpage, hdiv, List.range_succ]
        · have hmin : min P (N - off) = N - off :=
            Nat.min_eq_right (Nat.le_of_lt hsmall)
          have hpagelen : (pageAt N P off).length = N - off := by
            simp [pageAt, hmin]
          have hne : (pageAt N P off).isEmpty = false := by
            rw [List.isEmpty_eq_false]
            intro hcontra
            rw [hcontra] at hpagelen
            simp at hpagelen
            omega
          have hlt : (pageAt N P off).length < P := by
            rw [hpagelen]; exact hsmall
          simp [iterAux, hne, hlt, hdiv, List.range_succ]
      · have hmin : min P (N - off) = P := Nat.min_eq_left hge
        have hpagelen : (pageAt N P off).length = P := by
          simp [pageAt, hmin]
        have hne : (pageAt N P off).isEmpty = false := by
          rw [List.isEmpty_eq_false]
          intro hcontra
          rw [hcontra] at hpagelen
          simp at hpagelen
          omega
        have hdiv : (N - off) / P = (N - (off + P)) / P + 1 := by
          have h1 : N - (off + P) = (N - off) - P := by omega
          rw [h1, ← Nat.div_eq_sub_div hP hge]
        have hfuel : (N - (off + P)) / P < fuel := by omega
        have hrec := ih (off + P) hfuel
        have hfun : ((fun k => off + k * P) ∘ Nat.succ) =
            fun k => (off + P) + k * P := by
          funext k
          rw [Function.comp_apply, Nat.succ_mul]
          ring
        simp only [iterAux, hne, Bool.false_eq_true, if_false, hpagelen]
        rw [if_neg (Nat.lt_irrefl P)]
        show off :: (iterAux N P fuel (off + P)).2 = _
        rw [hrec, hdiv]
        conv_rhs => rw [List.range_succ_eq_map, List.map_cons, List.map_map]
        rw [hfun]
        simp

/-- C3: with page size P, offset pagination requests exactly the offsets
`0, P, 2P, …, (N/P)*P` against a source of N items: it advances by the
page length each time (consecutive requested offsets differ by P),
issues `N/P + 1` requests — which is `ceil(N/P)` or `ceil(N/P) + 1`
(the latter exactly when the last page is full or the stream is empty,
a full page being non-terminal) — and never requests an offset twice. -/
theorem offset_pagination_requests (N P : Nat) (hP : 0 < P) :
    iterRequests N P = (List.range (N / P + 1)).map (fun k => k * P) ∧
      (iterRequests N P).length = N / P + 1 ∧
      (N / P + 1 = (N + P - 1) / P ∨ N / P + 1 = (N + P - 1) / P + 1) ∧
      (iterRequests N P).Nodup := by
  have hfuel : (N - 0) / P < N + 1 := by
    rw [Nat.sub_zero]
    exact Nat.lt_succ_of_le (Nat.div_le_self N P)
  have hreq := iterAux_requests N P hP (N + 1) 0 hfuel
  have hreq' : iterRequests N P = (List.range (N / P + 1)).map (fun k => k * P) := by
    rw [iterRequests, hreq]
    simp
  refine ⟨hreq', ?_, ?_, ?_⟩
  · rw [hreq']
    simp
  · by_cases hr0 : N % P = 0
    · right
      have hrep : N + P - 1 = P * (N / P) + (P - 1) := by
        have := Nat.div_add_mod N P
        omega
      have hceil : (N + P - 1) / P = N / P := by
        rw [hrep, Nat.mul_add_div hP,
          Nat.div_eq_of_lt (show P - 1 < P by omega)]
        exact Nat.add_zero _
      rw [hceil]
    · left
      have hmod := Nat.mod_lt N hP
      have hrep : N + P - 1 = P * (N / P + 1) + (N % P - 1) := by
        have hdm := Nat.div_add_mod N P
        have hdist : P * (N / P + 1) = P * (N / P) + P := by ring
        omega
      have hceil : (N + P - 1) / P = N / P + 1 := by
        rw [hrep, Nat.mul_add_div hP,
          Nat.div_eq_of_lt (show N % P - 1 < P by omega)]
      rw [hceil]
  · rw [hreq']
    apply List.Nodup.map ?_ (List.nodup_range _)
    intro a b hab
    exact Nat.eq_of_mul_eq_mul_right hP hab

theorem offset_pagination_requests_witness :
    (0 < 2) ∧
      (iterRequests 5 2 = (List.range (5 / 2 + 1)).map (fun k => k * 2) ∧
        (iterRequests 5 2).length = 5 / 2 + 1 ∧
        (5 / 2 + 1 = (5 + 2 - 1) / 2 ∨ 5 / 2 + 1 = (5 + 2 - 1) / 2 + 1) ∧
        (iterRequests 5 2).Nodup) :=
  ⟨by decide, offset_pagination_requests 5 2 (by decide)⟩

theorem iterAux_neg_one_only_empty (N P : Nat) :
    ∀ (fuel off : Nat), ∀ y ∈ (iterAux N P fuel off).1, y.2 = -1 → y.1 = [] := by
  intro fuel
  induction fuel with
  | zero => intro off y hy; simp [iterAux] at hy
  | succ fuel ih =>
      intro off y hy hneg
      cases hb : (pageAt N P off).isEmpty with
      | true =>
          simp only [iterAux, hb, if_true] at hy
          simp only [List.mem_singleton] at hy
          rw [hy]
      | false =>
          simp only [iterAux, hb, Bool.false_eq_true, if_false] at hy
          by_cases hlt : (pageAt N P off).length < P
          · rw [if_pos hlt] at hy
            simp only [List.mem_singleton] at hy
            rw [hy] at hneg
            simp only at hneg
            omega
          · rw [if_neg hlt] at hy
            rcases List.mem_cons.mp hy with rfl | hy
            · simp only at hneg
              omega
            · exact ih (off + (pageAt N P off).length) y hy hneg

theorem iterAux_last_short (N P : Nat) (hP : 0 < P) :
    ∀ (fuel off : Nat), (N - off) / P < fuel → off ≤ N → (N - off) % P ≠ 0 →
      ∃ pg, ((iterAux N P fuel off).1).getLast? = some (pg, (N : Int)) ∧ pg ≠ [] := by
  intro fuel
  induction fuel with
  | zero => intro off h; exact absurd h (Nat.not_lt_zero _)
  | succ fuel ih =>
      intro off _ hoffN hmod
      have hz : N - off ≠ 0 := by
        intro h0
        rw [h0] at hmod
        exact hmod (Nat.zero_mod P)
      rcases Nat.lt_or_ge (N - off) P with hsmall | hge
      · have hmin : min P (N - off) = N - off :=
          Nat.min_eq_right (Nat.le_of_lt hsmall)
        have hpagelen : (pageAt N P off).length = N - off := by
          simp [pageAt, hmin]
        have hne : (pageAt N P off).isEmpty = false := by
          rw [List.isEmpty_eq_false]
          intro hcontra
          rw [hcontra] at hpagelen
          simp at hpagelen
          omega
        have hlt : (pageAt N P off).length < P := by
          rw [hpagelen]; exact hsmall
        refine ⟨pageAt N P off, ?_, ?_⟩
        · simp only [iterAux, hne, Bool.false_eq_true, if_false, if_pos hlt,
            List.getLast?_singleton]
          have : off + (pageAt N P off).length = N := by
            rw [hpagelen]; omega
          rw [this]
        · intro hcontra
          rw [hcontra] at hpagelen
          simp at hpagelen
          omega
      · have hmin : min P (N - off) = P := Nat.min_eq_left hge
        have hpagelen : (pageAt N P off).length = P := by
          simp [pageAt, hmin]
        have hne : (pageAt N P off).isEmpty = false := by
          rw [List.isEmpty_eq_false]
          intro hcontra
          rw [hcontra] at hpagelen
          simp at hpagelen
          omega
        have hdiv : (N - off) / P = (N - (off + P)) / P + 1 := by
          have h1 : N - (off + P) = (N - off) - P := by omega
          rw [h1, ← Nat.div_eq_sub_div hP hge]
        have hmod' : (N - (off + P)) % P ≠ 0 := by
          have h1 : N - off = P + (N - (off + P)) := by omega
          rw [h1, Nat.add_mod_left] at hmod
          exact hmod
      
        obtain ⟨pg, hlast, hpg⟩ :=
          ih (off + P) (by omega) (by omega) hmod'
        refine ⟨pg, ?_, hpg⟩
        simp only [iterAux, hne, Bool.false_eq_true, if_false, hpagelen]
        rw [if_neg (Nat.lt_irrefl P)]
        show ((pageAt N P off, ((off + P : Nat) : Int)) ::
            (iterAux N P fuel (off + P)).1).getLast? = _
        cases hrec : (iterAux N P fuel (off + P)).1 with
        | nil => rw [hrec] at hlast; simp at hlast
        | cons r rs =>
            rw [hrec] at hlast
            rw [List.getLast?_cons_cons]
            exact hlast

/-- C10: the done sentinel −1 is yielded only alongside an empty page,
and when the item total N is not a multiple of the page size P the run
ends with a non-empty short page whose yielded next_offset is N — a
positive value, never −1 — so a consumer cannot rely on seeing −1. -/
theorem done_sentinel_only_on_empty_page (N P : Nat) (hP : 0 < P)
    (hN : N % P ≠ 0) :
    (∀ y ∈ iterYields N P, y.2 = -1 → y.1 = []) ∧
      ∃ pg, (iterYields N P).getLast? = some (pg, (N : Int)) ∧ pg ≠ [] ∧
        (0 : Int) < (N : Int) ∧ ((N : Int)) ≠ -1 := by
  constructor
  · exact fun y hy => iterAux_neg_one_only_empty N P (N + 1) 0 y hy
  · have hfuel : (N - 0) / P < N + 1 := by
      rw [Nat.sub_zero]
      exact Nat.lt_succ_of_le (Nat.div_le_self N P)
    have hmod : (N - 0) % P ≠ 0 := by
      rw [Nat.sub_zero]; exact hN
    obtain ⟨pg, hlast, hpg⟩ :=
      iterAux_last_short N P hP (N + 1) 0 hfuel (Nat.zero_le N) hmod
    have hNpos : 0 < N := by
      rcases Nat.eq_zero_or_pos N with rfl | h
      · exact absurd (Nat.zero_mod P) hN
      · exact h
    exact ⟨pg, hlast, hpg, by omega, by omega⟩

theorem done_sentinel_only_on_empty_page_witness :
    (0 < 2 ∧ 5 % 2 ≠ 0) ∧
      ((∀ y ∈ iterYields 5 2, y.2 = -1 → y.1 = []) ∧
        ∃ pg, (iterYields 5 2).getLast? = some (pg, (5 : Int)) ∧ pg ≠ [] ∧
          (0 : Int) < (5 : Int) ∧ ((5 : Int)) ≠ -1) :=
  ⟨by decide, done_sentinel_only_on_empty_page 5 2 (by decide) (by decide)⟩

theorem normCursor_ne_sentinel (c : Option String) :
    normCursor c ≠ some sentinelCursor := by
  unfold normCursor
  split
  · simp
  · intro hcontra
    simp_all

theorem cursorParam_ne_sentinel (c : Option String)
    (h : c ≠ some sentinelCursor) : cursorParam c ≠ some sentinelCursor := by
  unfold cursorParam
  split
  · exact h
  · simp

theorem getAllAux_never_sends_sentinel {α : Type} :
    ∀ (responses : List (List α × Option String)) (cursor : Option String),
      cursor ≠ some sentinelCursor →
      ∀ c ∈ (getAllAux cursor responses).2, c ≠ some sentinelCursor := by
  intro responses
  induction responses with
  | nil => intro cursor _ c hc; simp [getAllAux] at hc
  | cons r rest ih =>
      intro cursor hcur c hc
      simp only [getAllAux] at hc
      by_cases ht : pyTruthyStr (getMarketTrades r).2 = true
      · rw [if_pos ht] at hc
        rcases List.mem_cons.mp hc with rfl | hc
        · exact cursorParam_ne_sentinel cursor hcur
        · exact ih (getMarketTrades r).2 (normCursor_ne_sentinel r.2) c hc
      · rw [if_neg ht] at hc
        simp only [List.mem_singleton] at hc
        rw [hc]
        exact cursorParam_ne_sentinel cursor hcur

theorem terminal_not_truthy (c : Option String) (h : isTerminalRaw c) :
    pyTruthyStr (normCursor c) = false := by
  rcases h with rfl | rfl | rfl
  · rfl
  · rfl
  · rfl

theorem getAllAux_calls_le {α : Type} :
    ∀ (responses : List (List α × Option String)) (cursor : Option String)
      (i : Nat) (r : List α × Option String),
      responses[i]? = some r → isTerminalRaw r.2 →
      (getAllAux cursor responses).2.length ≤ i + 1 := by
  intro responses
  induction responses with
  | nil => intro cursor i r hi; simp at hi
  | cons hd rest ih =>
      intro cursor i r hi hterm
      cases i with
      | zero =>
          simp only [List.getElem?_cons_zero, Option.some.injEq] at hi
          rw [← hi] at hterm
          have hf : pyTruthyStr (getMarketTrades hd).2 = false :=
            terminal_not_truthy hd.2 hterm
          simp only [getAllAux, hf, Bool.false_eq_true, if_false]
          simp
      | succ i =>
          simp only [List.getElem?_cons_succ] at hi
          simp only [getAllAux]
          by_cases ht : pyTruthyStr (getMarketTrades hd).2 = true
          · rw [if_pos ht]
            simp only [List.length_cons]
            have := ih (getMarketTrades hd).2 i r hi hterm
            omega
          · rw [if_neg ht]
            simp only [List.length_singleton]
            omega

/-- C4: the sentinel cursor "LTE=" is normalized to the terminal state
inside `get_market_trades`, and `get_all_market_trades` never sends it
as a cursor parameter; once a response carries a terminal raw cursor
(absent, empty, or the sentinel) at position i of the response
sequence, the loop makes at most i + 1 calls — it stops within one call
of observing the sentinel and never loops past it. -/
theorem cursor_sentinel_terminates (responses : List (List Nat × Option String))
    (i : Nat) (r : List Nat × Option String)
    (hi : responses[i]? = some r) (hterm : isTerminalRaw r.2) :
    (getAllTrace responses).2.length ≤ i + 1 ∧
      ∀ c ∈ (getAllTrace responses).2, c ≠ some sentinelCursor :=
  ⟨getAllAux_calls_le responses none i r hi hterm,
    getAllAux_never_sends_sentinel responses none (by simp) ⟩

theorem cursor_sentinel_terminates_witness :
    (([([1], some ("ab")), ([2], some sentinelCursor)] :
          List (List Nat × Option String))[1]? =
        some (([2], some sentinelCursor)) ∧
      isTerminalRaw ((([2] : List Nat), some sentinelCursor).2)) ∧
      ((getAllTrace [([1], some ("ab")), ([2], some sentinelCursor)]).2.length ≤ 1 + 1 ∧
        ∀ c ∈ (getAllTrace [([1], some ("ab")),
            ([2], some sentinelCursor)] : List Nat × List (Option String)).2,
          c ≠ some sentinelCursor) :=
  ⟨⟨by decide, Or.inr (Or.inr rfl)⟩,
    cursor_sentinel_terminates [([1], some ("ab")), ([2], some sentinelCursor)] 1
      (([2], some sentinelCursor)) (by decide) (Or.inr (Or.inr rfl))⟩

theorem aggregatePrices_acc {ε ρ : Type} :
    ∀ (results : List (Except ε (List ρ))) (acc : List ρ),
      results.foldl pricesStep acc = acc ++ (results.filterMap okRecords).flatten := by
  intro results
  induction results with
  | nil => intro acc; simp
  | cons r rest ih =>
      intro acc
      rw [List.foldl_cons, ih]
      cases r with
      | ok rs =>
          by_cases he : rs = []
          · subst he
            simp [pricesStep, fetchOnePrices, okRecords]
          · have hne : rs.isEmpty = false := by
              rw [List.isEmpty_eq_false]; exact he
            simp [pricesStep, fetchOnePrices, okRecords, hne, List.append_assoc]
      | error e => simp [pricesStep, fetchOnePrices, okRecords]

theorem aggregateKalshi_acc {ε ρ : Type} :
    ∀ (results : List (Except ε (List ρ))) (acc : List ρ),
      results.foldl kalshiStep acc = acc ++ (results.filterMap okRecords).flatten := by
  intro results
  induction results with
  | nil => intro acc; simp
  | cons r rest ih =>
      intro acc
      rw [List.foldl_cons, ih]
      cases r with
      | ok rs =>
          by_cases he : rs = []
          · subst he
            simp [kalshiStep, okRecords]
          · have hne : rs.isEmpty = false := by
              rw [List.isEmpty_eq_false]; exact he
            simp [kalshiStep, okRecords, hne, List.append_assoc]
      | error e => simp [kalshiStep, okRecords]

theorem processedCount_acc {ε ρ : Type} :
    ∀ (results : List (Except ε (List ρ))) (n : Nat),
      results.foldl (fun n _ => n + 1) n = n + results.length := by
  intro results
  induction results with
  | nil => intro n; simp
  | cons r rest ih =>
      intro n
      simp only [List.foldl_cons, ih, List.length_cons]
      omega

theorem filterMap_set_error {ε ρ : Type} :
    ∀ (results : List (Except ε (List ρ))) (i : Nat) (e : ε),
      (results.set i (Except.error e)).filterMap okRecords =
        (results.take i).filterMap okRecords ++
          (results.drop (i + 1)).filterMap okRecords := by
  intro results
  induction results with
  | nil => intro i e; simp
  | cons r rest ih =>
      intro i e
      cases i with
      | zero =>
          simp only [List.set_cons_zero, List.filterMap_cons, okRecords,
            List.take_zero, List.drop_succ_cons, List.drop_zero,
            List.filterMap_nil, List.nil_append]
      | succ i =>
          simp only [List.set_cons_succ, List.filterMap_cons, List.take_succ_cons,
            List.drop_succ_cons, ih]
          cases okRecords r with
          | none => rfl
          | some rs => simp

/-- C5: per-item failure is isolated.  For every completion order and
outcome assignment, both consumer loops aggregate exactly the records of
the successful fetches, every submitted item is processed, and turning
any one item's outcome into a failure removes only that item's records —
the contributions of all items before and after it are unchanged. -/
theorem per_item_failure_isolated (ε ρ : Type)
    (results : List (Except ε (List ρ))) (i : Nat) (e : ε) :
    aggregatePrices results = (results.filterMap okRecords).flatten ∧
      aggregateKalshiTrades results = (results.filterMap okRecords).flatten ∧
      processedCount results = results.length ∧
      aggregatePrices (results.set i (Except.error e)) =
        ((results.take i).filterMap okRecords).flatten ++
          ((results.drop (i + 1)).filterMap okRecords).flatten := by
  refine ⟨?_, ?_, ?_, ?_⟩
  · rw [aggregatePrices, aggregatePrices_acc]
    rfl
  · rw [aggregateKalshiTrades, aggregateKalshi_acc]
    rfl
  · rw [processedCount, processedCount_acc]
    omega
  · rw [aggregatePrices, aggregatePrices_acc, filterMap_set_error]
    simp [List.flatten_append]

theorem dictUpsert_keys_of_mem (m : List (String × String)) (k v : String)
    (h : m.any (fun p => p.1 == k) = true) :
    (dictUpsert m k v).map (fun p => p.1) = m.map (fun p => p.1) := by
  unfold dictUpsert
  rw [if_pos h, List.map_map]
  apply List.map_congr_left
  intro a _
  simp only [Function.comp_apply]
  split <;> rfl

theorem dictUpsert_keys_of_not_mem (m : List (String × String)) (k v : String)
    (h : ¬ m.any (fun p => p.1 == k) = true) :
    (dictUpsert m k v).map (fun p => p.1) = m.map (fun p => p.1) ++ [k] := by
  unfold dictUpsert
  rw [if_neg h, List.map_append]
  rfl

theorem dictUpsert_keys_nodup (m : List (String × String)) (k v : String)
    (h : (m.map (fun p => p.1)).Nodup) :
    ((dictUpsert m k v).map (fun p => p.1)).Nodup := by
  by_cases hany : m.any (fun p => p.1 == k) = true
  · rw [dictUpsert_keys_of_mem m k v hany]
    exact h
  · rw [dictUpsert_keys_of_not_mem m k v hany]
    apply List.Nodup.append h (List.nodup_singleton k)
    intro a ha hak
    simp only [List.mem_singleton] at hak
    subst hak
    apply hany
    rw [List.any_eq_true]
    obtain ⟨p, hp, hpk⟩ := List.mem_map.mp ha
    exact ⟨p, hp, by simp [hpk]⟩

theorem dictUpsert_keys_mem (m : List (String × String)) (k v a : String) :
    a ∈ (dictUpsert m k v).map (fun p => p.1) ↔
      a ∈ m.map (fun p => p.1) ∨ a = k := by
  by_cases hany : m.any (fun p => p.1 == k) = true
  · rw [dictUpsert_keys_of_mem m k v hany]
    constructor
    · exact fun h => Or.inl h
    · rintro (h | rfl)
      · exact h
      · rw [List.any_eq_true] at hany
        obtain ⟨p, hp, hpk⟩ := hany
        rw [List.mem_map]
        exact ⟨p, hp, by simpa using hpk⟩
  · rw [dictUpsert_keys_of_not_mem m k v hany]
    simp

theorem tokenMap_inner_nodup (cond : String) :
    ∀ (tids : List String) (acc : List (String × String)),
      (acc.map (fun p => p.1)).Nodup →
      ((tids.foldl (fun a t => dictUpsert a t cond) acc).map (fun p => p.1)).Nodup := by
  intro tids
  induction tids with
  | nil => intro acc h; exact h
  | cons t ts ih =>
      intro acc h
      exact ih (dictUpsert acc t cond) (dictUpsert_keys_nodup acc t cond h)

theorem tokenMap_inner_mem (cond : String) :
    ∀ (tids : List String) (acc : List (String × String)) (a : String),
      (a ∈ (tids.foldl (fun ac t => dictUpsert ac t cond) acc).map (fun p => p.1) ↔
        a ∈ acc.map (fun p => p.1) ∨ a ∈ tids) := by
  intro tids
  induction tids with
  | nil => intro acc a; simp
  | cons t ts ih =>
      intro acc a
      rw [List.foldl_cons, ih, dictUpsert_keys_mem]
      simp only [List.mem_cons]
      tauto

theorem buildTokenMap_nodup (markets : List (String × List String)) :
    ((buildTokenMap markets).map (fun p => p.1)).Nodup := by
  suffices h : ∀ (ms : List (String × List String)) (acc : List (String × String)),
      (acc.map (fun p => p.1)).Nodup →
      ((ms.foldl (fun acc m => m.2.foldl (fun a t => dictUpsert a t m.1) acc)
          acc).map (fun p => p.1)).Nodup by
    exact h markets [] (by simp)
  intro ms
  induction ms with
  | nil => intro acc h; exact h
  | cons m rest ih =>
      intro acc h
      exact ih _ (tokenMap_inner_nodup m.1 m.2 acc h)

theorem buildTokenMap_mem (markets : List (String × List String)) (a : String) :
    a ∈ (buildTokenMap markets).map (fun p => p.1) ↔
      ∃ m ∈ markets, a ∈ m.2 := by
  suffices h : ∀ (ms : List (String × List String)) (acc : List (String × String)),
      (a ∈ (ms.foldl (fun acc m => m.2.foldl (fun ac t => dictUpsert ac t m.1) acc)
            acc).map (fun p => p.1) ↔
        a ∈ acc.map (fun p => p.1) ∨ ∃ m ∈ ms, a ∈ m.2) by
    rw [buildTokenMap, h markets []]
    simp
  intro ms
  induction ms with
  | nil => intro acc; simp
  | cons m rest ih =>
      intro acc
      rw [List.foldl_cons, ih, tokenMap_inner_mem]
      simp only [List.mem_cons]
      constructor
      · rintro ((h | h) | ⟨m', hm', ha'⟩)
        · exact Or.inl h
        · exact Or.inr ⟨m, Or.inl rfl, h⟩
        · exact Or.inr ⟨m', Or.inr hm', ha'⟩
      · rintro (h | ⟨m', hm' | hm', ha'⟩)
        · exact Or.inl (Or.inl h)
        · subst hm'
          exact Or.inl (Or.inr ha')
        · exact Or.inr ⟨m', hm', ha'⟩

/-- C6 counterexample: the Kalshi indexer submits one fetch per element
of its ticker list with no deduplication; a list containing the same
ticker twice yields two submissions for that key, refuting the claim
that the fetch function is invoked exactly once per distinct key. -/
theorem work_set_dedup_counterexample :
    (kalshiSubmissions ["KXHIGHNY-A", "KXHIGHNY-A", "KXRAIN-B"]).count
        ("KXHIGHNY-A") = 2 ∧
      (kalshiSubmissions ["KXHIGHNY-A", "KXHIGHNY-A", "KXRAIN-B"]).count
        ("KXHIGHNY-A") ≠ 1 := by
  decide

/-- C6 amended: the Polymarket indexer's work set is a dict keyed by
token id, so its submitted keys are duplicate-free and each distinct
token id appearing in any weather market is submitted exactly once.
The Kalshi indexer, by contrast, submits one fetch per ticker-list
element without deduplication: a key occurring n times in the list is
submitted n times. -/
theorem work_set_dedup_amended (markets : List (String × List String))
    (tickers : List String) (k : String) :
    (polymarketSubmissions markets).Nodup ∧
      (k ∈ polymarketSubmissions markets ↔ ∃ m ∈ markets, k ∈ m.2) ∧
      (kalshiSubmissions tickers).count k = tickers.count k :=
  ⟨buildTokenMap_nodup markets, buildTokenMap_mem markets k, rfl⟩

/-- C9: the token-id parser fails closed.  `parseTokenIds` is a total
function (the Lean embedding of the fact that `_parse_token_ids` never
raises: `json.loads` failures and non-string inputs are caught and fall
through to `return []`).  It returns `[]` when the quote-substituted
input fails to parse or parses to a non-list, returns the stringified
truthy elements when it parses to a JSON list, and in particular
returns exactly the non-empty token ids for a list of strings. -/
theorem parse_token_ids_fail_closed (jsonLoads : String → Option Json)
    (s : String) :
    (jsonLoads (pyReplaceQuotes s) = none → parseTokenIds jsonLoads s = []) ∧
      (∀ j, jsonLoads (pyReplaceQuotes s) = some j →
        (∀ xs, j ≠ Json.arr xs) → parseTokenIds jsonLoads s = []) ∧
      (∀ xs, jsonLoads (pyReplaceQuotes s) = some (Json.arr xs) →
        parseTokenIds jsonLoads s = (xs.filter pyTruthyJson).map pyStr) ∧
      (∀ (ss : List String),
        jsonLoads (pyReplaceQuotes s) = some (Json.arr (ss.map Json.str)) →
        parseTokenIds jsonLoads s = ss.filter (fun t => !t.isEmpty)) := by
  refine ⟨?_, ?_, ?_, ?_⟩
  · intro h
    unfold parseTokenIds
    rw [h]
  · intro j hj hne
    unfold parseTokenIds
    rw [hj]
    cases j with
    | arr xs => exact absurd rfl (hne xs)
    | null => rfl
    | bool b => rfl
    | num n => rfl
    | str t => rfl
    | obj fs => rfl
  · intro xs h
    unfold parseTokenIds
    rw [h]
  · intro ss h
    unfold parseTokenIds
    rw [h]
    show (List.filter pyTruthyJson (List.map Json.str ss)).map pyStr =
      ss.filter (fun t => !t.isEmpty)
    rw [List.filter_map, List.map_map]
    have h1 : (pyStr ∘ Json.str) = id := rfl
    have h2 : (pyTruthyJson ∘ Json.str) = fun t => !t.isEmpty := rfl
    rw [h1, h2, List.map_id]

theorem parse_token_ids_fail_closed_witness :
    ((fun _ : String => some (Json.arr [Json.str ("tok1"), Json.str (""), Json.str ("tok2")]))
          (pyReplaceQuotes ("x")) =
        some (Json.arr (["tok1", "", "tok2"].map Json.str))) ∧
      parseTokenIds
          (fun _ : String => some (Json.arr [Json.str ("tok1"), Json.str (""), Json.str ("tok2")]))
          ("x") =
        ["tok1", "", "tok2"].filter (fun t => !t.isEmpty) :=
  ⟨rfl,
    (parse_token_ids_fail_closed
        (fun _ : String => some (Json.arr [Json.str ("tok1"), Json.str (""), Json.str ("tok2")]))
        ("x")).2.2.2 ["tok1", "", "tok2"] rfl⟩

end PMA
